import Mathlib

/-!
Verification of the MNIST CNN notebook
(`Building+a+CNN+-+MNIST.ipynb`).

The repository is a single notebook that configures and runs a Keras
pipeline.  The notebook itself contains the configuration (layer stack,
kernel sizes, pool sizes, batch size, number of classes, the sampling of
20000 training indices, the reshape / astype / divide-by-255
preprocessing and the one-hot encoding calls); the numerical semantics of
the invoked layers and utilities live in the framework and are therefore
modelled here from the specification, as noted on each definition.
Machine floats are modelled by `ℚ` (exact rational arithmetic) where the
code is data movement, and by `ℝ` where the spec property is analytic
(softmax).
-/

namespace CNN

/-! ## Shapes and layer stack (notebook model cell)

`Shape` is the per-sample tensor shape flowing between layers: either a
spatial feature map `(height, width, channels)` or a flat vector. -/

inductive Shape where
  | spatial (h w c : ℕ)
  | flat (n : ℕ)
deriving DecidableEq, Repr

/-- The layer kinds the notebook adds to its `Sequential` model, carrying
the constructor arguments that appear in the notebook. -/
inductive Layer where
  | conv2D (filters kr kc : ℕ)
  | batchNorm
  | maxPool2D (p : ℕ)
  | flattenL
  | dense (units : ℕ)
  | dropoutL (rate : ℚ)
deriving DecidableEq, Repr

/-- Modelled from the spec: shape inference for one layer.  Convolution
(stride 1, no padding) maps spatial size `s` to `s − kernel + 1` per
dimension and sets the channel count to the filter count; max pooling with
pool size `p` and stride `p` maps `s` to `⌊s / p⌋`; flatten maps
`(h, w, c)` to `h * w * c`; a dense layer consumes a flat vector and
produces its unit count; batch normalization and dropout preserve the
shape.  Construction fails (`Except.error`) on incompatible input shapes:
a kernel or pool larger than the input or of size zero, or a dense /
flatten mismatch. -/
def inferShape (l : Layer) (s : Shape) : Except String Shape :=
  match l, s with
  | .conv2D k kr kc, .spatial h w c =>
      if 0 < kr ∧ kr ≤ h ∧ 0 < kc ∧ kc ≤ w ∧ 0 < c then
        .ok (.spatial (h - kr + 1) (w - kc + 1) k)
      else .error "conv2D: kernel incompatible with input"
  | .conv2D _ _ _, .flat _ => .error "conv2D: expects a spatial input"
  | .batchNorm, s => .ok s
  | .maxPool2D p, .spatial h w c =>
      if 0 < p ∧ p ≤ h ∧ p ≤ w then .ok (.spatial (h / p) (w / p) c)
      else .error "maxPool2D: pool incompatible with input"
  | .maxPool2D _, .flat _ => .error "maxPool2D: expects a spatial input"
  | .flattenL, .spatial h w c => .ok (.flat (h * w * c))
  | .flattenL, .flat n => .ok (.flat n)
  | .dense u, .flat n =>
      if 0 < n then .ok (.flat u) else .error "dense: empty input"
  | .dense _, .spatial _ _ _ => .error "dense: expects a flat input"
  | .dropoutL _, s => .ok s

/-- Modelled from the spec: building a `Sequential` model threads the
input shape through the layer list; the first incompatible adjacent pair
aborts construction with its error. -/
def buildModel (s : Shape) : List Layer → Except String Shape
  | [] => .ok s
  | l :: ls =>
      match inferShape l s with
      | .ok t => buildModel t ls
      | .error e => .error e

/-- The layer stack the notebook adds to its `Sequential` model, in
order: Conv2D(32, 3×3) + BN, Conv2D(64, 3×3) + BN + MaxPool(2×2),
Conv2D(128, 3×3) + BN + MaxPool(2×2), Flatten, Dense(128),
Dropout(0.25), Dense(10). -/
def cnnLayers : List Layer :=
  [ .conv2D 32 3 3, .batchNorm,
    .conv2D 64 3 3, .batchNorm, .maxPool2D 2,
    .conv2D 128 3 3, .batchNorm, .maxPool2D 2,
    .flattenL, .dense 128, .dropoutL (1/4), .dense 10 ]

/-- The notebook's input shape: `(img_rows, img_cols, 1) = (28, 28, 1)`. -/
def inputShape : Shape := .spatial 28 28 1

/-! ## One-hot encoding (notebook label cell)

Modelled from the spec: `to_categorical` with `num_classes = n` sends an
integer label `l` to the length-`n` vector with a 1 at index `l` and 0
elsewhere, under the fixed class ordering `0..n-1`. -/

/-- Modelled from the spec: one-hot encoding of label `l` into `n`
classes. -/
def toCategorical (n : ℕ) (l : ℕ) : List ℚ :=
  (List.range n).map (fun i => if i = l then 1 else 0)

/-- Tail of `argmax`: `i` is the index of the next element, `best` the
index of the running maximum `bv`; a strictly larger element replaces the
running maximum, so ties keep the earliest index (numpy `argmax`
semantics). -/
def argmaxAux : List ℚ → ℕ → ℕ → ℚ → ℕ
  | [], _, best, _ => best
  | x :: xs, i, best, bv =>
      if bv < x then argmaxAux xs (i + 1) i x else argmaxAux xs (i + 1) best bv

/-- Index of the first maximal element of a list (0 on the empty list),
the decoding direction of the one-hot bijection. -/
def argmax : List ℚ → ℕ
  | [] => 0
  | x :: xs => argmaxAux xs 1 0 x

/-- A length-10 one-hot vector under the spec's glossary: exactly one
entry equal to 1 and every entry 0 or 1. -/
def isOneHot10 (v : List ℚ) : Prop :=
  v.length = 10 ∧ (∀ x ∈ v, x = 0 ∨ x = 1) ∧ v.count 1 = 1

instance (v : List ℚ) : Decidable (isOneHot10 v) := by
  unfold isOneHot10; infer_instance

/-! ## Pixel preprocessing (notebook reshape and normalise cells)

An image is a 28×28 grid of integer pixels, modelled as nested lists.
The notebook reshapes `(N, 28, 28)` to `(N, 28, 28, 1)` — per pixel this
wraps the scalar in a singleton channel list — then converts to float and
divides by 255. -/

/-- Modelled from the spec: pixel normalisation — convert to float and
divide by 255 (exact rational model of the float32 computation). -/
def normalizePixel (p : ℕ) : ℚ := (p : ℚ) / 255

/-- Modelled from the spec: the reshape `(28, 28) → (28, 28, 1)` of one
image, wrapping every pixel in a singleton channel dimension. -/
def addChannelDim (img : List (List ℕ)) : List (List (List ℕ)) :=
  img.map (fun row => row.map (fun p => [p]))

/-- Row-major flattening of a rank-2 tensor. -/
def flat2 (t : List (List ℕ)) : List ℕ := t.flatten

/-- Row-major flattening of a rank-3 tensor. -/
def flat3 (t : List (List (List ℕ))) : List ℕ := (t.map List.flatten).flatten

/-! ## Theorems -/

/-- A list of 0/1 entries containing no 1 is all zeros. -/
lemma eq_replicate_zero_of_count_one_zero (v : List ℚ)
    (hmem : ∀ x ∈ v, x = 0 ∨ x = 1) (hcount : v.count 1 = 0) :
    v = List.replicate v.length 0 := by
  induction v with
  | nil => rfl
  | cons x xs ih =>
      have hcc : (x :: xs).count 1 = xs.count 1 + if x = 1 then 1 else 0 := by
        simp [List.count_cons]
      have hx : x ≠ 1 := by
        intro h
        rw [hcount, if_pos h] at hcc
        omega
      have hx0 : x = 0 := by
        rcases hmem x (by simp) with h | h
        · exact h
        · exact absurd h hx
      have hxs : xs.count 1 = 0 := by
        rw [hcount, if_neg hx] at hcc
        omega
      have := ih (fun y hy => hmem y (by simp [hy])) hxs
      rw [List.length_cons, List.replicate_succ, hx0]
      exact congrArg (List.cons 0) this

/-- A 0/1 list with exactly one 1 is a one-hot vector `toCategorical`. -/
lemma exists_toCategorical_of_zero_one (v : List ℚ)
    (hmem : ∀ x ∈ v, x = 0 ∨ x = 1) (hcount : v.count 1 = 1) :
    ∃ i < v.length, v = toCategorical v.length i := by
  induction v with
  | nil => simp at hcount
  | cons x xs ih =>
      have hcc : (x :: xs).count 1 = xs.count 1 + if x = 1 then 1 else 0 := by
        simp [List.count_cons]
      rcases hmem x (by simp) with hx0 | hx1
      · -- head is 0: the single 1 lies in the tail
        have hxs : xs.count 1 = 1 := by
          have hne : x ≠ 1 := by rw [hx0]; norm_num
          rw [hcount, if_neg hne] at hcc
          omega
        obtain ⟨i, hi, hxseq⟩ := ih (fun y hy => hmem y (by simp [hy])) hxs
        refine ⟨i + 1, by simpa using Nat.succ_lt_succ hi, ?_⟩
        have hlen : (x :: xs).length = xs.length + 1 := rfl
        rw [hlen]
        unfold toCategorical
        rw [List.range_succ_eq_map, List.map_cons, List.map_map]
        have hhead : (if (0 : ℕ) = i + 1 then (1 : ℚ) else 0) = 0 := by
          simp
        have htail :
            (List.range xs.length).map
                ((fun j => if j = i + 1 then (1 : ℚ) else 0) ∘ (· + 1)) =
              (List.range xs.length).map (fun j => if j = i then (1 : ℚ) else 0) := by
          apply List.map_congr_left
          intro j _
          simp [Function.comp]
        rw [hhead, htail, hx0]
        exact congrArg (0 :: ·) (by simpa [toCategorical] using hxseq)
      · -- head is 1: the tail is all zeros
        have hxs : xs.count 1 = 0 := by
          rw [hcount, if_pos hx1] at hcc
          omega
        have hz := eq_replicate_zero_of_count_one_zero xs
          (fun y hy => hmem y (by simp [hy])) hxs
        refine ⟨0, by simp, ?_⟩
        have hlen : (x :: xs).length = xs.length + 1 := rfl
        rw [hlen]
        unfold toCategorical
        rw [List.range_succ_eq_map, List.map_cons, List.map_map]
        have htail :
            (List.range xs.length).map
                ((fun j => if j = 0 then (1 : ℚ) else 0) ∘ (· + 1)) =
              List.replicate xs.length 0 := by
          have h1 : ∀ j ∈ List.range xs.length,
              ((fun j => if j = 0 then (1 : ℚ) else 0) ∘ (· + 1)) j =
                (fun _ => (0 : ℚ)) j := by
            intro j _
            simp [Function.comp]
          rw [List.map_congr_left h1]
          simp [List.eq_replicate_iff]
        rw [htail, hx1]
        show (1 : ℚ) :: xs = 1 :: List.replicate xs.length 0
        exact congrArg (List.cons 1) hz

/-- C1: for every configured convolutional layer (stride 1, no padding)
the output spatial size per dimension is `input − kernel + 1` and the
output channel count is the filter count; for max pooling with pool size
`p` and stride `p` the output spatial size is `⌊input / p⌋`; and in the
configured model the spatial sizes run 28 → 26 → 24 → 12 → 10 → 5 along
the conv/pool chain. -/
theorem conv_pool_output_sizes :
    (∀ h w c k kr kc, 0 < kr → kr ≤ h → 0 < kc → kc ≤ w → 0 < c →
      inferShape (.conv2D k kr kc) (.spatial h w c) =
        .ok (.spatial (h - kr + 1) (w - kc + 1) k)) ∧
    (∀ h w c p, 0 < p → p ≤ h → p ≤ w →
      inferShape (.maxPool2D p) (.spatial h w c) =
        .ok (.spatial (h / p) (w / p) c)) ∧
    buildModel inputShape (cnnLayers.take 1) = .ok (.spatial 26 26 32) ∧
    buildModel inputShape (cnnLayers.take 4) = .ok (.spatial 24 24 64) ∧
    buildModel inputShape (cnnLayers.take 5) = .ok (.spatial 12 12 64) ∧
    buildModel inputShape (cnnLayers.take 7) = .ok (.spatial 10 10 128) ∧
    buildModel inputShape (cnnLayers.take 8) = .ok (.spatial 5 5 128) := by
  refine ⟨?_, ?_, rfl, rfl, rfl, rfl, rfl⟩
  · intro h w c k kr kc h1 h2 h3 h4 h5
    simp [inferShape, h1, h2, h3, h4, h5]
  · intro h w c p h1 h2 h3
    simp [inferShape, h1, h2, h3]

/-- Witness for C1 at the notebook's first conv layer and second pool
layer. -/
theorem conv_pool_output_sizes_witness :
    inferShape (.conv2D 32 3 3) (.spatial 28 28 1) =
      .ok (.spatial 26 26 32) ∧
    inferShape (.maxPool2D 2) (.spatial 24 24 64) =
      .ok (.spatial 12 12 64) :=
  ⟨conv_pool_output_sizes.1 28 28 1 32 3 3 (by decide) (by decide)
      (by decide) (by decide) (by decide),
   conv_pool_output_sizes.2.1 24 24 64 2 (by decide) (by decide) (by decide)⟩

/-- C2: one-hot encoding a raw label `L ∈ [0,9]` into 10 classes and
decoding by argmax recovers `L`; and encoding is a bijection between
`[0,9]` and the length-10 one-hot vectors (well-defined into one-hot
vectors, injective, surjective). -/
theorem onehot_argmax_bijection :
    (∀ l < 10, argmax (toCategorical 10 l) = l) ∧
    (∀ l < 10, isOneHot10 (toCategorical 10 l)) ∧
    (∀ l1 l2, l1 < 10 → l2 < 10 →
      toCategorical 10 l1 = toCategorical 10 l2 → l1 = l2) ∧
    (∀ v, isOneHot10 v → ∃ l < 10, toCategorical 10 l = v) := by
  have hround : ∀ l < 10, argmax (toCategorical 10 l) = l := by decide
  refine ⟨hround, by decide, ?_, ?_⟩
  · intro l1 l2 h1 h2 heq
    have := hround l1 h1
    rw [heq, hround l2 h2] at this
    exact this.symm
  · intro v hv
    obtain ⟨hlen, hmem, hcount⟩ := hv
    obtain ⟨i, hi, hveq⟩ := exists_toCategorical_of_zero_one v hmem hcount
    rw [hlen] at hi hveq
    exact ⟨i, hi, hveq.symm⟩

/-- Witness for C2 at the concrete label 7 and the concrete one-hot
vector for class 1. -/
theorem onehot_argmax_bijection_witness :
    argmax (toCategorical 10 7) = 7 ∧
    ∃ l < 10, toCategorical 10 l =
      [0, 1, 0, 0, 0, 0, 0, 0, 0, 0] :=
  ⟨onehot_argmax_bijection.1 7 (by decide),
   onehot_argmax_bijection.2.2.2 [0, 1, 0, 0, 0, 0, 0, 0, 0, 0] (by decide)⟩

/-- C3: every pixel in `[0,255]` normalises into `[0,1]`, and adding the
channel dimension (the `(N,28,28) → (N,28,28,1)` reshape, per image) is
lossless: flattening the reshaped image reproduces the original pixel
sequence. -/
theorem preprocessing_range_and_reshape :
    (∀ p : ℕ, p ≤ 255 →
      0 ≤ normalizePixel p ∧ normalizePixel p ≤ 1) ∧
    (∀ img : List (List ℕ), flat3 (addChannelDim img) = flat2 img) := by
  constructor
  · intro p hp
    constructor
    · unfold normalizePixel; positivity
    · unfold normalizePixel
      rw [div_le_one (by norm_num)]
      exact_mod_cast hp
  · intro img
    induction img with
    | nil => rfl
    | cons row rest ih =>
        simp only [flat3, addChannelDim, flat2, List.map_cons,
          List.flatten_cons] at ih ⊢
        rw [ih]
        have h : (row.map fun p => [p]).flatten = row := by
          induction row with
          | nil => rfl
          | cons p ps ihp =>
              simp only [List.map_cons, List.flatten_cons, ihp]
              rfl
        rw [h]

/-- Witness for C3 at the extreme pixel value 255. -/
theorem preprocessing_range_and_reshape_witness :
    0 ≤ normalizePixel 255 ∧ normalizePixel 255 ≤ 1 :=
  preprocessing_range_and_reshape.1 255 (by decide)

/-! ## Model construction (C7) -/

/-- One construction step: the head layer's shape check gates the rest. -/
lemma buildModel_cons (s : Shape) (l : Layer) (ls : List Layer) :
    buildModel s (l :: ls) =
      match inferShape l s with
      | .ok t => buildModel t ls
      | .error e => .error e := rfl

/-- Building a model over an appended layer list runs the prefix first. -/
lemma buildModel_append (s : Shape) (pre post : List Layer) :
    buildModel s (pre ++ post) =
      match buildModel s pre with
      | .ok t => buildModel t post
      | .error e => .error e := by
  induction pre generalizing s with
  | nil => rfl
  | cons l ls ih =>
      cases h : inferShape l s with
      | ok t =>
          have h1 : buildModel s ((l :: ls) ++ post) = buildModel t (ls ++ post) := by
            show buildModel s (l :: (ls ++ post)) = _
            rw [buildModel_cons, h]
          have h2 : buildModel s (l :: ls) = buildModel t ls := by
            rw [buildModel_cons, h]
          rw [h1, h2]
          exact ih t
      | error e =>
          have h1 : buildModel s ((l :: ls) ++ post) = .error e := by
            show buildModel s (l :: (ls ++ post)) = _
            rw [buildModel_cons, h]
          have h2 : buildModel s (l :: ls) = .error e := by
            rw [buildModel_cons, h]
          rw [h1, h2]

/-- C7: the configured model builds successfully and its final layer
output is a flat 10-vector (shape `(batch, 10)`), and construction fails
whenever any two adjacent layers are incompatible: if the shape reaching
some layer is rejected by that layer, the whole construction reports that
error. -/
theorem model_construction_shape_checked :
    buildModel inputShape cnnLayers = .ok (.flat 10) ∧
    ∀ (input : Shape) (pre : List Layer) (l : Layer) (post : List Layer)
      (s : Shape) (e : String),
      buildModel input pre = .ok s → inferShape l s = .error e →
      buildModel input (pre ++ l :: post) = .error e := by
  refine ⟨rfl, ?_⟩
  intro input pre l post s e hpre hl
  rw [buildModel_append, hpre]
  show buildModel s (l :: post) = .error e
  rw [buildModel_cons, hl]

/-- Witness for C7: a dense layer directly on the spatial input is
incompatible, and construction reports its error. -/
theorem model_construction_shape_checked_witness :
    buildModel inputShape [Layer.dense 128] =
      .error "dense: expects a flat input" :=
  model_construction_shape_checked.2 inputShape [] (.dense 128) []
    inputShape "dense: expects a flat input" rfl rfl

/-! ## Preprocessor buffers (C5)

The notebook rebinds its variables: `reshape` returns a view of the raw
integer buffer, `astype` allocates a fresh float buffer holding a
converted copy, `/= 255` then writes that fresh buffer in place, and
`to_categorical` allocates a fresh buffer for the one-hot labels.  We
model the heap explicitly: `intBufs` are the raw integer buffers the
loader produced, `ratBufs` the float buffers the preprocessing
allocates.  Images are kept flattened to one pixel list per buffer. -/

structure BufferState where
  intBufs : List (List ℕ)
  ratBufs : List (List ℚ)
deriving DecidableEq, Repr

/-- The notebook's preprocessing pipeline on the heap, for one raw image
pixel buffer `x` and one raw label buffer `y` (notebook reshape, astype,
`/= 255` and `to_categorical` cells, in notebook order). -/
def preprocessBuffers (x y : List ℕ) : BufferState :=
  -- heap as the loader leaves it: buffer 0 = pixels, buffer 1 = labels
  let s0 : BufferState := ⟨[x, y], []⟩
  -- x.reshape(...): a view of buffer 0, no allocation and no write
  -- x.astype(float32): allocate float buffer 0 as a converted copy
  let s1 : BufferState :=
    ⟨s0.intBufs, s0.ratBufs ++ [(s0.intBufs.getD 0 []).map (fun p : ℕ => (p : ℚ))]⟩
  -- x /= 255: write float buffer 0 in place
  let s2 : BufferState :=
    ⟨s1.intBufs, s1.ratBufs.set 0 ((s1.ratBufs.getD 0 []).map (fun q => q / 255))⟩
  -- to_categorical(y, 10): allocate float buffer 1 with the one-hot rows
  ⟨s2.intBufs, s2.ratBufs ++ [((s2.intBufs.getD 1 []).map (toCategorical 10)).flatten]⟩

/-- C5: preprocessing leaves the raw input buffers unchanged — after the
pipeline the original images buffer still holds the original integer
pixels and the original labels buffer still holds the original labels —
while the results live in freshly allocated buffers holding the
normalised pixels and the one-hot labels. -/
theorem preprocessor_preserves_inputs (x y : List ℕ) :
    (preprocessBuffers x y).intBufs = [x, y] ∧
    (preprocessBuffers x y).ratBufs =
      [x.map normalizePixel, (y.map (toCategorical 10)).flatten] := by
  constructor
  · rfl
  · show [(x.map (fun p : ℕ => (p : ℚ))).map (fun q => q / 255),
        (y.map (toCategorical 10)).flatten] =
      [x.map normalizePixel, (y.map (toCategorical 10)).flatten]
    rw [List.map_map]
    rfl

/-! ## Validating preprocessor (C6) -/

/-- Modelled from the spec: a raw label is valid when it lies in
`[0, 9]`. -/
def labelOk (l : ℤ) : Bool := 0 ≤ l && l ≤ 9

/-- Modelled from the spec: a raw image is valid when it is a square
28×28 grid. -/
def imageOk (img : List (List ℕ)) : Bool :=
  img.length == 28 && img.all (fun row => row.length == 28)

/-- Modelled from the spec: per-image preprocessing — normalise every
pixel and add the channel dimension. -/
def preprocessImage (img : List (List ℕ)) : List (List (List ℚ)) :=
  img.map (fun row => row.map (fun p => [normalizePixel p]))

/-- Modelled from the spec: the validating preprocessor.  It rejects the
whole batch with an error if any image is not 28×28 or any label falls
outside `[0, 9]`; otherwise it returns the normalised image tensors and
the one-hot label vectors. -/
def preprocessChecked (imgs : List (List (List ℕ))) (labels : List ℤ) :
    Except String (List (List (List (List ℚ))) × List (List ℚ)) :=
  if imgs.all imageOk then
    if labels.all labelOk then
      .ok (imgs.map preprocessImage,
           labels.map (fun l => toCategorical 10 l.toNat))
    else .error "label outside [0,9]"
  else .error "image shape is not square 28x28"

/-- A successful preprocessing run implies every input was valid. -/
lemma preprocessChecked_ok_valid (imgs : List (List (List ℕ)))
    (labels : List ℤ) (out : List (List (List (List ℚ))) × List (List ℚ))
    (h : preprocessChecked imgs labels = .ok out) :
    imgs.all imageOk = true ∧ labels.all labelOk = true := by
  unfold preprocessChecked at h
  by_cases h1 : imgs.all imageOk
  · by_cases h2 : labels.all labelOk
    · exact ⟨h1, h2⟩
    · rw [if_pos h1, if_neg h2] at h
      exact absurd h (by simp)
  · rw [if_neg h1] at h
    exact absurd h (by simp)

/-- C6: the preprocessor rejects the batch with an error whenever some
label falls outside `[0, 9]` or some image is not a square 28×28 grid;
and conversely a successful result certifies that every label and every
image was valid — no partially-valid result is produced. -/
theorem preprocessor_rejects_invalid (imgs : List (List (List ℕ)))
    (labels : List ℤ) :
    (((∃ l ∈ labels, l < 0 ∨ 9 < l) ∨
        ∃ img ∈ imgs, ¬(img.length = 28 ∧ ∀ row ∈ img, row.length = 28)) →
      ∃ e, preprocessChecked imgs labels = .error e) ∧
    ∀ out, preprocessChecked imgs labels = .ok out →
      (∀ l ∈ labels, 0 ≤ l ∧ l ≤ 9) ∧
      ∀ img ∈ imgs, img.length = 28 ∧ ∀ row ∈ img, row.length = 28 := by
  have hvalid : ∀ out, preprocessChecked imgs labels = .ok out →
      (∀ l ∈ labels, 0 ≤ l ∧ l ≤ 9) ∧
      ∀ img ∈ imgs, img.length = 28 ∧ ∀ row ∈ img, row.length = 28 := by
    intro out hok
    obtain ⟨h1, h2⟩ := preprocessChecked_ok_valid imgs labels out hok
    constructor
    · intro l hl
      have := (List.all_eq_true.mp h2) l hl
      simpa [labelOk, Bool.and_eq_true, decide_eq_true_iff] using this
    · intro img himg
      have := (List.all_eq_true.mp h1) img himg
      simpa [imageOk, Bool.and_eq_true, List.all_eq_true,
        decide_eq_true_iff] using this
  refine ⟨?_, hvalid⟩
  intro hbad
  cases hres : preprocessChecked imgs labels with
  | error e => exact ⟨e, rfl⟩
  | ok out =>
      exfalso
      obtain ⟨hlab, himg⟩ := hvalid out hres
      rcases hbad with ⟨l, hl, hout⟩ | ⟨img, himgs, hshape⟩
      · rcases hout with h | h
        · exact absurd (hlab l hl).1 (by omega)
        · exact absurd (hlab l hl).2 (by omega)
      · exact hshape (himg img himgs)

/-- Witness for C6: a single 1×1 image is rejected. -/
theorem preprocessor_rejects_invalid_witness :
    ∃ e, preprocessChecked [[[0]]] [5] = .error e :=
  (preprocessor_rejects_invalid [[[0]]] [5]).1 (by decide)

/-! ## Trainer divergence check (C9)

The loss of one optimisation step is an IEEE value: finite, NaN or an
infinity.  `lossAt e b` is the loss the trainer observes at epoch `e`,
batch `b`. -/

inductive FpVal where
  | fin (q : ℚ)
  | nan
  | posInf
  | negInf
deriving DecidableEq, Repr

/-- Finiteness of an IEEE loss value. -/
def FpVal.isFinite : FpVal → Bool
  | .fin _ => true
  | _ => false

/-- Modelled from the spec: the batches of one epoch, from batch index
`b` with `n` batches left; the first non-finite loss aborts with the
divergence site `(e, b)`. -/
def runBatches (lossAt : ℕ → ℕ → FpVal) (e : ℕ) : ℕ → ℕ → Except (ℕ × ℕ) Unit
  | _, 0 => .ok ()
  | b, n + 1 =>
      if (lossAt e b).isFinite then runBatches lossAt e (b + 1) n
      else .error (e, b)

/-- Modelled from the spec: the epoch loop, from epoch `e` with `n`
epochs left and `B` batches per epoch; a divergent epoch aborts the whole
run with its divergence site. -/
def runEpochs (lossAt : ℕ → ℕ → FpVal) (B : ℕ) : ℕ → ℕ → Except (ℕ × ℕ) Unit
  | _, 0 => .ok ()
  | e, n + 1 =>
      match runBatches lossAt e 0 B with
      | .ok _ => runEpochs lossAt B (e + 1) n
      | .error p => .error p

/-- Modelled from the spec: the trainer runs `E` epochs of `B` batches
and surfaces a fatal training-divergence error carrying the epoch/batch
at which the loss became non-finite. -/
def trainLoop (E B : ℕ) (lossAt : ℕ → ℕ → FpVal) : Except (ℕ × ℕ) Unit :=
  runEpochs lossAt B 0 E

/-- One epoch succeeds exactly when every remaining batch has finite
loss. -/
lemma runBatches_ok_iff (lossAt : ℕ → ℕ → FpVal) (e b n : ℕ) :
    runBatches lossAt e b n = .ok () ↔
      ∀ k < n, (lossAt e (b + k)).isFinite = true := by
  induction n generalizing b with
  | zero => simp [runBatches]
  | succ n ih =>
      unfold runBatches
      by_cases h : (lossAt e b).isFinite
      · rw [if_pos h, ih]
        constructor
        · intro hall k hk
          cases k with
          | zero => simpa using h
          | succ k =>
              have := hall k (by omega)
              simpa [Nat.add_assoc, Nat.add_comm 1 k] using this
        · intro hall k hk
          have := hall (k + 1) (by omega)
          simpa [Nat.add_assoc, Nat.add_comm 1 k] using this
      · rw [if_neg h]
        constructor
        · intro hcon
          exact absurd hcon (by simp)
        · intro hall
          exact absurd (hall 0 (by omega)) (by simpa using h)

/-- An epoch error names a divergent batch of that epoch. -/
lemma runBatches_error (lossAt : ℕ → ℕ → FpVal) (e b n : ℕ) (p : ℕ × ℕ)
    (h : runBatches lossAt e b n = .error p) :
    p.1 = e ∧ b ≤ p.2 ∧ p.2 < b + n ∧ (lossAt e p.2).isFinite = false := by
  induction n generalizing b with
  | zero => exact absurd h (by simp [runBatches])
  | succ n ih =>
      unfold runBatches at h
      by_cases hf : (lossAt e b).isFinite
      · rw [if_pos hf] at h
        obtain ⟨h1, h2, h3, h4⟩ := ih (b + 1) h
        exact ⟨h1, by omega, by omega, h4⟩
      · rw [if_neg hf] at h
        have hp : p = (e, b) := by
          cases h
          rfl
        subst hp
        exact ⟨rfl, le_refl b, by omega, by simpa using hf⟩

/-- The epoch loop succeeds exactly when every remaining epoch has only
finite losses. -/
lemma runEpochs_ok_iff (lossAt : ℕ → ℕ → FpVal) (B e n : ℕ) :
    runEpochs lossAt B e n = .ok () ↔
      ∀ j < n, ∀ b < B, (lossAt (e + j) b).isFinite = true := by
  induction n generalizing e with
  | zero => simp [runEpochs]
  | succ n ih =>
      unfold runEpochs
      cases hb : runBatches lossAt e 0 B with
      | ok u =>
          cases u
          rw [ih]
          have hepoch := (runBatches_ok_iff lossAt e 0 B).mp hb
          constructor
          · intro hall j hj b hB
            cases j with
            | zero => simpa using hepoch b (by omega)
            | succ j =>
                have := hall j (by omega) b hB
                simpa [Nat.add_assoc, Nat.add_comm 1 j] using this
          · intro hall j hj b hB
            have := hall (j + 1) (by omega) b hB
            simpa [Nat.add_assoc, Nat.add_comm 1 j] using this
      | error p =>
          constructor
          · intro hcon
            exact absurd hcon (by simp)
          · intro hall
            obtain ⟨h1, h2, h3, h4⟩ := runBatches_error lossAt e 0 B p hb
            have := hall 0 (by omega) p.2 (by omega)
            rw [Nat.add_zero] at this
            rw [this] at h4
            exact absurd h4 (by simp)

/-- An epoch-loop error names a divergent epoch/batch in range. -/
lemma runEpochs_error (lossAt : ℕ → ℕ → FpVal) (B e n : ℕ) (p : ℕ × ℕ)
    (h : runEpochs lossAt B e n = .error p) :
    e ≤ p.1 ∧ p.1 < e + n ∧ p.2 < B ∧ (lossAt p.1 p.2).isFinite = false := by
  induction n generalizing e with
  | zero => exact absurd h (by simp [runEpochs])
  | succ n ih =>
      unfold runEpochs at h
      cases hb : runBatches lossAt e 0 B with
      | ok u =>
          rw [hb] at h
          cases u
          obtain ⟨h1, h2, h3, h4⟩ := ih (e + 1) h
          exact ⟨by omega, by omega, h3, h4⟩
      | error q =>
          rw [hb] at h
          have hp : p = q := by
            cases h
            rfl
          subst hp
          obtain ⟨h1, h2, h3, h4⟩ := runBatches_error lossAt e 0 B p hb
          refine ⟨by omega, by omega, by omega, ?_⟩
          rw [h1]
          exact h4

/-- C9: the trainer succeeds exactly when every batch of every epoch has
a finite loss; a reported error names an in-range epoch/batch whose loss
is non-finite; hence whenever some batch loss is non-finite the trainer
aborts with a divergence error naming a divergent epoch/batch rather
than silently continuing. -/
theorem trainer_aborts_on_divergence (E B : ℕ) (lossAt : ℕ → ℕ → FpVal) :
    (trainLoop E B lossAt = .ok () ↔
      ∀ e < E, ∀ b < B, (lossAt e b).isFinite = true) ∧
    (∀ e b, trainLoop E B lossAt = .error (e, b) →
      e < E ∧ b < B ∧ (lossAt e b).isFinite = false) ∧
    ((∃ e < E, ∃ b < B, (lossAt e b).isFinite = false) →
      ∃ e b, trainLoop E B lossAt = .error (e, b) ∧
        e < E ∧ b < B ∧ (lossAt e b).isFinite = false) := by
  have hok : trainLoop E B lossAt = .ok () ↔
      ∀ e < E, ∀ b < B, (lossAt e b).isFinite = true := by
    unfold trainLoop
    rw [runEpochs_ok_iff]
    constructor
    · intro hall e he b hb
      simpa using hall e he b hb
    · intro hall j hj b hb
      simpa using hall j hj b hb
  have herr : ∀ e b, trainLoop E B lossAt = .error (e, b) →
      e < E ∧ b < B ∧ (lossAt e b).isFinite = false := by
    intro e b h
    obtain ⟨h1, h2, h3, h4⟩ := runEpochs_error lossAt B 0 E (e, b) h
    exact ⟨by omega, h3, h4⟩
  refine ⟨hok, herr, ?_⟩
  intro ⟨e, he, b, hb, hdiv⟩
  cases hres : trainLoop E B lossAt with
  | ok u =>
      cases u
      have := (hok.mp hres) e he b hb
      rw [this] at hdiv
      exact absurd hdiv (by simp)
  | error p =>
      obtain ⟨pe, pb⟩ := p
      obtain ⟨h1, h2, h3⟩ := herr pe pb hres
      exact ⟨pe, pb, rfl, h1, h2, h3⟩

/-- Witness for C9: with 2 epochs of 3 batches and a NaN loss at epoch 1,
batch 1, the trainer reports a divergence error at a divergent
epoch/batch. -/
theorem trainer_aborts_on_divergence_witness :
    ∃ e b,
      trainLoop 2 3 (fun e b => if e = 1 ∧ b = 1 then .nan else .fin 0) =
        .error (e, b) ∧
      e < 2 ∧ b < 3 ∧
      ((fun e b => if e = 1 ∧ b = 1 then FpVal.nan else FpVal.fin 0) e
          b).isFinite = false :=
  (trainer_aborts_on_divergence 2 3
      (fun e b => if e = 1 ∧ b = 1 then .nan else .fin 0)).2.2
    ⟨1, by decide, 1, by decide, by decide⟩

/-! ## Training-subset sampling (C10)

Notebook cell 7 draws `idx = np.random.randint(60000, size=20000)` from
the unseeded process-global generator and takes `x_train[idx]`,
`y_train[idx]`.  The random draw is modelled by quantifying over every
possible index vector with entries in `[0, 60000)`. -/

/-- Fancy-indexing `xs[idx]` of numpy: the entries of `xs` at the drawn
indices, in draw order (out-of-range indices select nothing; all theorems
below restrict to in-range draws as `randint` guarantees). -/
def select {α : Type} (xs : List α) (idx : List ℕ) : List α :=
  idx.filterMap (fun i => xs[i]?)

/-- Selecting from two equal-length lists with the same index vector and
zipping equals selecting from the zipped list: the image/label pairing is
preserved. -/
lemma select_zip {α β : Type} (xs : List α) (ys : List β) (idx : List ℕ)
    (hlen : xs.length = ys.length) (hval : ∀ i ∈ idx, i < xs.length) :
    (select xs idx).zip (select ys idx) = select (xs.zip ys) idx := by
  induction idx with
  | nil => rfl
  | cons i rest ih =>
      have hix : i < xs.length := hval i (by simp)
      have hiy : i < ys.length := by omega
      have hiz : i < (xs.zip ys).length := by
        rw [List.length_zip]
        omega
      unfold select at ih ⊢
      rw [List.filterMap_cons, List.filterMap_cons, List.filterMap_cons,
        List.getElem?_eq_getElem hix, List.getElem?_eq_getElem hiy,
        List.getElem?_eq_getElem hiz, List.zip_cons_cons,
        ih (fun j hj => hval j (by simp [hj]))]
      congr 1
      exact List.getElem_zip.symm

/-- Selecting a constant index yields copies of that entry. -/
lemma select_replicate {α : Type} (xs : List α) (n i : ℕ) (a : α)
    (h : xs[i]? = some a) :
    select xs (List.replicate n i) = List.replicate n a := by
  induction n with
  | zero => rfl
  | succ n ih =>
      rw [List.replicate_succ, List.replicate_succ]
      unfold select at ih ⊢
      rw [List.filterMap_cons, h, ih]

/-- C10: the subsample `x_train[idx]`, `y_train[idx]` drawn by
`np.random.randint(60000, size=20000)` (i) preserves the image/label
pairing, (ii) only contains pairs from the original training partition,
(iii) cannot cover all 60000 originals, (iv) may contain duplicate
examples, and (v) two different draws of the unseeded generator can
select different training subsets. -/
theorem training_subset_sampling :
    (∀ (xs ys : List ℕ) (idx : List ℕ),
      xs.length = ys.length → (∀ i ∈ idx, i < xs.length) →
      (select xs idx).zip (select ys idx) = select (xs.zip ys) idx) ∧
    (∀ (xs ys : List ℕ) (idx : List ℕ),
      ∀ p ∈ select (xs.zip ys) idx, p ∈ xs.zip ys) ∧
    (∀ idx : List ℕ, idx.length = 20000 → ∃ i < 60000, i ∉ idx) ∧
    (∃ idx : List ℕ, idx.length = 20000 ∧
      (∀ i ∈ idx, i < 60000) ∧ ¬idx.Nodup) ∧
    (∃ idx1 idx2 : List ℕ,
      idx1.length = 20000 ∧ idx2.length = 20000 ∧
      (∀ i ∈ idx1, i < 60000) ∧ (∀ i ∈ idx2, i < 60000) ∧
      select (List.range 60000) idx1 ≠ select (List.range 60000) idx2) := by
  refine ⟨fun xs ys idx h1 h2 => select_zip xs ys idx h1 h2, ?_, ?_, ?_, ?_⟩
  · intro xs ys idx p hp
    unfold select at hp
    obtain ⟨i, _, hsome⟩ := List.mem_filterMap.mp hp
    exact List.getElem?_mem hsome
  · intro idx hlen
    by_contra hcon
    push_neg at hcon
    have hsub : Finset.range 60000 ⊆ idx.toFinset := by
      intro i hi
      rw [List.mem_toFinset]
      exact hcon i (Finset.mem_range.mp hi)
    have hcard := Finset.card_le_card hsub
    rw [Finset.card_range] at hcard
    have := idx.toFinset_card_le
    omega
  · refine ⟨List.replicate 20000 0, List.length_replicate 20000 0, ?_, ?_⟩
    · intro i hi
      rw [List.eq_of_mem_replicate hi]
      omega
    · rw [List.nodup_replicate]
      omega
  · refine ⟨List.replicate 20000 0, List.replicate 20000 1,
      List.length_replicate 20000 0, List.length_replicate 20000 1, ?_, ?_, ?_⟩
    · intro i hi
      rw [List.eq_of_mem_replicate hi]
      omega
    · intro i hi
      rw [List.eq_of_mem_replicate hi]
      omega
    · rw [select_replicate (List.range 60000) 20000 0 0
          (List.getElem?_range (by omega)),
        select_replicate (List.range 60000) 20000 1 1
          (List.getElem?_range (by omega))]
      intro h
      have h0 := congrArg List.head? h
      rw [List.head?_replicate, List.head?_replicate] at h0
      simp at h0

/-- Witness for C10: pairing preservation on a concrete draw with a
repeated index, and non-coverage for a concrete 20000-index draw. -/
theorem training_subset_sampling_witness :
    (select [10, 20] [1, 0, 1]).zip (select [30, 40] [1, 0, 1]) =
      select (List.zip [10, 20] [30, 40]) [1, 0, 1] ∧
    ∃ i < 60000, i ∉ List.replicate 20000 0 :=
  ⟨training_subset_sampling.1 [10, 20] [30, 40] [1, 0, 1] rfl (by decide),
   training_subset_sampling.2.2.1 (List.replicate 20000 0) (List.length_replicate 20000 0)⟩

/-! ## Softmax (C4)

Modelled from the spec: the final `Dense(num_classes,
activation='softmax')` layer exponentiates each logit and normalises by
the sum, numerically stabilised by subtracting the maximum logit before
exponentiation.  The analytic property is stated over `ℝ`, where the
floating-point tolerance of the spec becomes exact equality. -/

/-- Modelled from the spec: textbook softmax — exponentiate, normalise
by the sum. -/
noncomputable def softmaxPlain {n : ℕ} (x : Fin (n + 1) → ℝ) :
    Fin (n + 1) → ℝ :=
  fun i => Real.exp (x i) / ∑ j, Real.exp (x j)

/-- The maximum logit, subtracted for numerical stability. -/
noncomputable def maxLogit {n : ℕ} (x : Fin (n + 1) → ℝ) : ℝ :=
  Finset.univ.sup' Finset.univ_nonempty x

/-- Modelled from the spec: the stabilised softmax the layer computes —
subtract the maximum logit, exponentiate, normalise by the sum. -/
noncomputable def softmax {n : ℕ} (x : Fin (n + 1) → ℝ) :
    Fin (n + 1) → ℝ :=
  fun i => Real.exp (x i - maxLogit x) /
    ∑ j, Real.exp (x j - maxLogit x)

/-- C4: for every finite logit vector the softmax output is a valid
probability distribution — every entry lies in `[0, 1]` and the entries
sum to exactly 1 — the stabilised computation agrees with the textbook
softmax, and after subtracting the maximum logit every exponentiated
term is at most 1 (the no-overflow bound). -/
theorem softmax_is_distribution {n : ℕ} (x : Fin (n + 1) → ℝ) :
    (∀ i, 0 ≤ softmax x i ∧ softmax x i ≤ 1) ∧
    (∑ i, softmax x i) = 1 ∧
    (∀ i, Real.exp (x i - maxLogit x) ≤ 1) ∧
    softmax x = softmaxPlain x := by
  have hpos : 0 < ∑ j, Real.exp (x j - maxLogit x) :=
    Finset.sum_pos (fun j _ => Real.exp_pos _) Finset.univ_nonempty
  refine ⟨?_, ?_, ?_, ?_⟩
  · intro i
    constructor
    · exact div_nonneg (Real.exp_pos _).le hpos.le
    · rw [softmax, div_le_one hpos]
      exact Finset.single_le_sum
        (f := fun j => Real.exp (x j - maxLogit x))
        (fun j _ => (Real.exp_pos _).le) (Finset.mem_univ i)
  · unfold softmax
    rw [← Finset.sum_div]
    exact div_self hpos.ne'
  · intro i
    rw [Real.exp_le_one_iff, sub_nonpos]
    exact Finset.le_sup' x (Finset.mem_univ i)
  · funext i
    have hsum : ∑ j, Real.exp (x j - maxLogit x) =
        (∑ j, Real.exp (x j)) / Real.exp (maxLogit x) := by
      rw [Finset.sum_div]
      exact Finset.sum_congr rfl (fun j _ => Real.exp_sub (x j) (maxLogit x))
    have hs : 0 < ∑ j, Real.exp (x j) :=
      Finset.sum_pos (fun j _ => Real.exp_pos _) Finset.univ_nonempty
    rw [softmax, softmaxPlain, hsum, Real.exp_sub]
    rw [div_div_div_cancel_right₀]
    exact Real.exp_ne_zero _

/-! ## Evaluator (C8)

Modelled from the spec: the network layers carry their parameters
(dense weights and biases, batch-normalisation scale/shift and running
statistics), a forward pass takes an explicit training/inference mode
plus a random-generator state, and the evaluator runs the model in
inference mode over a dataset.  In inference mode dropout is the
identity and batch normalisation reads its frozen running statistics;
in training mode dropout consumes the generator and batch normalisation
updates its running statistics (batch statistics are modelled at the
granularity of one sample, which is all the purity claim needs). -/

inductive Mode where
  | training
  | inference

/-- Per-feature batch-normalisation state: learned scale/shift and the
running statistics frozen during inference. -/
structure BNFeature where
  gamma : ℝ
  beta : ℝ
  runningMean : ℝ
  runningVar : ℝ

/-- A layer with its parameters. -/
inductive NLayer where
  | dense (w : List (List ℝ)) (b : List ℝ)
  | reluL
  | bn (ps : List BNFeature)
  | dropoutN (rate : ℝ)

/-- Linear congruential generator standing in for the process-wide
random source consumed by training-mode dropout. -/
def lcg (s : ℕ) : ℕ := (1664525 * s + 1013904223) % 4294967296

/-- Dot product of two feature vectors. -/
noncomputable def dotProd (v w : List ℝ) : ℝ := (List.zipWith (· * ·) v w).sum

/-- Dense layer forward: one output per weight row, `w·x + b`. -/
noncomputable def denseForward (w : List (List ℝ)) (b : List ℝ)
    (x : List ℝ) : List ℝ :=
  List.zipWith (fun row bi => dotProd row x + bi) w b

/-- ReLU forward: elementwise `max 0`. -/
noncomputable def reluForward (x : List ℝ) : List ℝ := x.map (fun v => max 0 v)

/-- Batch normalisation in inference mode: normalise with the frozen
running statistics (Keras epsilon 0.001), then scale and shift. -/
noncomputable def bnInfer (ps : List BNFeature) (x : List ℝ) : List ℝ :=
  List.zipWith
    (fun f xv =>
      f.gamma * (xv - f.runningMean) / Real.sqrt (f.runningVar + 1 / 1000) +
        f.beta)
    ps x

/-- Batch normalisation in training mode (sample-granular batch
statistics): the running statistics move toward the batch statistics
with Keras momentum 0.99. -/
noncomputable def bnTrain (ps : List BNFeature) (x : List ℝ) :
    List ℝ × List BNFeature :=
  (List.zipWith
      (fun f xv => f.gamma * (xv - xv) / Real.sqrt (0 + 1 / 1000) + f.beta)
      ps x,
   List.zipWith
      (fun f xv =>
        ⟨f.gamma, f.beta, 99 / 100 * f.runningMean + 1 / 100 * xv,
          99 / 100 * f.runningVar⟩)
      ps x)

/-- Dropout in training mode: each activation is zeroed or rescaled by
`1 / (1 − q)` according to the generator, which is threaded through. -/
noncomputable def dropTrain (q : ℝ) : ℕ → List ℝ → List ℝ × ℕ
  | rng, [] => ([], rng)
  | rng, v :: vs =>
      let r := lcg rng
      let rest := dropTrain q r vs
      ((if r % 2 = 0 then 0 else v / (1 - q)) :: rest.1, rest.2)

/-- One layer's forward pass: mode, generator state and layer in;
output, (possibly updated) layer and generator state out. -/
noncomputable def forwardOne (mode : Mode) (rng : ℕ) (l : NLayer)
    (x : List ℝ) : List ℝ × NLayer × ℕ :=
  match mode, l with
  | _, .dense w b => (denseForward w b x, .dense w b, rng)
  | _, .reluL => (reluForward x, .reluL, rng)
  | .inference, .bn ps => (bnInfer ps x, .bn ps, rng)
  | .training, .bn ps =>
      let r := bnTrain ps x
      (r.1, .bn r.2, rng)
  | .inference, .dropoutN q => (x, .dropoutN q, rng)
  | .training, .dropoutN q =>
      let r := dropTrain q rng x
      (r.1, .dropoutN q, r.2)

/-- The model's forward pass: thread the sample through the layers,
collecting the (possibly updated) layers and generator state. -/
noncomputable def modelForward (mode : Mode) :
    ℕ → List NLayer → List ℝ → List ℝ × List NLayer × ℕ
  | rng, [], x => (x, [], rng)
  | rng, l :: ls, x =>
      let step := forwardOne mode rng l x
      let rest := modelForward mode step.2.2 ls step.1
      (rest.1, step.2.1 :: rest.2.1, rest.2.2)

/-- First index of the maximal activation (predicted class). -/
noncomputable def argmaxRAux : List ℝ → ℕ → ℕ → ℝ → ℕ
  | [], _, best, _ => best
  | v :: vs, i, best, bv =>
      if bv < v then argmaxRAux vs (i + 1) i v
      else argmaxRAux vs (i + 1) best bv

/-- Predicted class of an output vector. -/
noncomputable def argmaxR : List ℝ → ℕ
  | [] => 0
  | v :: vs => argmaxRAux vs 1 0 v

/-- Evaluation pass over the dataset in inference mode: accumulates the
per-sample loss and the correct-prediction count, threading the model
state through every forward pass. -/
noncomputable def evalRun (lossFn : List ℝ → ℕ → ℝ) :
    List NLayer → List (List ℝ × ℕ) → ℝ × ℕ × List NLayer
  | m, [] => (0, 0, m)
  | m, s :: rest =>
      let fwd := modelForward .inference 0 m s.1
      let acc := evalRun lossFn fwd.2.1 rest
      (lossFn fwd.1 s.2 + acc.1,
       (if argmaxR fwd.1 = s.2 then 1 else 0) + acc.2.1,
       acc.2.2)

/-- Modelled from the spec: the Evaluator — mean loss and accuracy of
the model over a held-out dataset, computed in inference mode; returns
the metrics together with the model state after the run. -/
noncomputable def evaluateModel (lossFn : List ℝ → ℕ → ℝ)
    (m : List NLayer) (data : List (List ℝ × ℕ)) :
    (ℝ × ℝ) × List NLayer :=
  let acc := evalRun lossFn m data
  ((acc.1 / data.length, (acc.2.1 : ℝ) / data.length), acc.2.2)

/-- An inference-mode forward pass never changes a layer's parameters
and never consumes randomness. -/
lemma forwardOne_inference_frame (rng : ℕ) (l : NLayer) (x : List ℝ) :
    (forwardOne .inference rng l x).2.1 = l ∧
    (forwardOne .inference rng l x).2.2 = rng := by
  cases l <;> exact ⟨rfl, rfl⟩

/-- An inference-mode model forward pass returns the model unchanged. -/
lemma modelForward_inference_frame (m : List NLayer) (rng : ℕ)
    (x : List ℝ) :
    (modelForward .inference rng m x).2.1 = m := by
  induction m generalizing rng x with
  | nil => rfl
  | cons l ls ih =>
      show ((forwardOne .inference rng l x).2.1 ::
        (modelForward .inference _ ls _).2.1) = l :: ls
      rw [(forwardOne_inference_frame rng l x).1, ih]

/-- The evaluation pass returns the model unchanged. -/
lemma evalRun_frame (lossFn : List ℝ → ℕ → ℝ) (m : List NLayer)
    (data : List (List ℝ × ℕ)) :
    (evalRun lossFn m data).2.2 = m := by
  induction data generalizing m with
  | nil => rfl
  | cons s rest ih =>
      show (evalRun lossFn (modelForward .inference 0 m s.1).2.1 rest).2.2 = m
      rw [ih, modelForward_inference_frame]

/-- C8: the Evaluator is a pure function of model and dataset — it
returns the model with every layer parameter unchanged, evaluating again
on the returned model reproduces the identical metrics, and during
evaluation dropout is the identity while batch normalisation reads its
frozen running statistics without updating them. -/
theorem evaluator_pure (lossFn : List ℝ → ℕ → ℝ) (m : List NLayer)
    (data : List (List ℝ × ℕ)) :
    (evaluateModel lossFn m data).2 = m ∧
    evaluateModel lossFn ((evaluateModel lossFn m data).2) data =
      evaluateModel lossFn m data ∧
    (∀ rng l x, (forwardOne .inference rng l x).2.1 = l) ∧
    (∀ rng q x, forwardOne .inference rng (.dropoutN q) x =
      (x, .dropoutN q, rng)) ∧
    (∀ rng ps x, forwardOne .inference rng (.bn ps) x =
      (bnInfer ps x, .bn ps, rng)) := by
  have hframe : (evaluateModel lossFn m data).2 = m := by
    show (evalRun lossFn m data).2.2 = m
    exact evalRun_frame lossFn m data
  refine ⟨hframe, ?_, fun rng l x => (forwardOne_inference_frame rng l x).1,
    fun rng q x => rfl, fun rng ps x => rfl⟩
  rw [hframe]

end CNN
